import Mathlib

/-!
Verification development for the ada-scanner repository (src/server.js).

The source is a Node/Express accessibility scanner.  This file gives a shallow
embedding of the parts of src/server.js that the specification's claims are
about:

* `parseChars` / `serializeChars` / `normalizeUrl` — the URL canonicalizer
  (src/server.js:310-334), over a model of the WHATWG URL parser restricted to
  absolute http/https URLs (scheme, lowercased host, port, path, query,
  fragment; percent-encoding, userinfo and relative-reference resolution are
  outside the subset the scanner's inputs exercise).
* `getInternalLinks`, `crawlStep`, `crawlAux` — the crawl frontier loop of the
  /api/scan handler (src/server.js:378-508), with the page fetch outcome and
  the anchor hrefs of each page supplied as oracles.
* `explainViolations` and its evaluation-order trace — the per-rule AI
  enrichment pipeline (src/server.js:62-142), with the outcome of each
  external call supplied as an oracle.
* `executedAuditOps` — the page-audit try/catch of the crawl loop body
  (src/server.js:408-507), as the list of operations actually executed.
* `handlerStart`, `pageLimit`, `aiLevel`, `buildScanResponse` — request
  validation, budget clamping, plan mapping and result assembly
  (src/server.js:336-353 and 557-606).

Strings are manipulated through their underlying character lists so that every
definition is executable and every concrete claim can be settled by `decide`.
-/

/-- Map a character list to lower case, modelling JS `String.prototype.toLowerCase`
on the ASCII range the URL parser acts on. -/
def lowerChars (l : List Char) : List Char :=
  l.map Char.toLower

/-- Split a character list at the first occurrence of `c`: the prefix before it
and, when `c` occurs, the remainder after it.  Models JS `split(c)[0]` together
with the remainder, and the component splits of the URL parser. -/
def splitAtFirst (c : Char) : List Char → List Char × Option (List Char)
  | [] => ([], none)
  | x :: xs =>
    if x = c then ([], some xs)
    else
      let r := splitAtFirst c xs
      (x :: r.1, r.2)

/-- Split a character list at every occurrence of `c` (the pieces never contain
`c`; the result is always nonempty).  Models splitting a query string on ampersands. -/
def splitAll (c : Char) : List Char → List (List Char)
  | [] => [[]]
  | x :: xs =>
    match splitAll c xs with
    | [] => [[]]
    | h :: t => if x = c then [] :: h :: t else (x :: h) :: t

/-- Join pieces with the separator `c`; left inverse of `splitAll` on
separator-free nonempty piece lists. -/
def joinSep (c : Char) : List (List Char) → List Char
  | [] => []
  | [p] => p
  | p :: ps => p ++ c :: joinSep c ps

/-- Read a decimal digit sequence as a number; `none` if any character is not a
digit.  Models the URL parser's port handling. -/
def digitsToNat (l : List Char) : Option Nat :=
  l.foldl
    (fun acc c =>
      match acc with
      | none => none
      | some n => if c.isDigit then some (n * 10 + (c.toNat - 48)) else none)
    (some 0)

/-- Parsed absolute http(s) URL: the record held by a WHATWG `URL` object, in
the subset of components src/server.js reads and writes.  `https = false`
means scheme `http`. -/
structure Url where
  https : Bool
  host : List Char
  port : Option Nat
  path : List Char
  query : Option (List Char)
  frag : Option (List Char)
deriving DecidableEq, Repr

/-- Scheme recognition of the parser: accepts `http` / `https` case-insensitively,
returning whether the scheme is https. -/
def schemeOf (raw : List Char) : Option Bool :=
  if lowerChars raw = ['h', 't', 't', 'p'] then some false
  else if lowerChars raw = ['h', 't', 't', 'p', 's'] then some true
  else none

/-- Port component parsing: absent or empty means no port; a digit sequence is
accepted up to 65535, and a scheme-default port (80 for http, 443 for https) is
dropped, as the WHATWG parser does. -/
def parsePort (https : Bool) : Option (List Char) → Option (Option Nat)
  | none => some none
  | some [] => some none
  | some (d :: ds) =>
    match digitsToNat (d :: ds) with
    | none => none
    | some p =>
      if p > 65535 then none
      else if https then (if p = 443 then some none else some (some p))
      else (if p = 80 then some none else some (some p))

/-- Parse host, port and path from the characters following `scheme://`:
split at the first `/` into host-port and path, then split the host-port at the
first `:`.  The host is lowercased and must be nonempty; a missing path becomes `/`. -/
def parseAfterScheme (https : Bool) (hostEtc : List Char)
    (query frag : Option (List Char)) : Option Url :=
  let hp := splitAtFirst '/' hostEtc
  let hs := splitAtFirst ':' hp.1
  if hs.1 = [] then none
  else
    match parsePort https hs.2 with
    | none => none
    | some port =>
      some { https := https, host := lowerChars hs.1, port := port,
             path := '/' :: hp.2.getD [], query := query, frag := frag }

/-- Parse the pre-fragment part of a URL together with an already-extracted
fragment: split off the query at the first `?`, the scheme at the first `:`,
and require the `//` authority marker. -/
def parseRest (beforeFrag : List Char) (frag : Option (List Char)) : Option Url :=
  let pq := splitAtFirst '?' beforeFrag
  let ps := splitAtFirst ':' pq.1
  match ps.2 with
  | none => none
  | some rest =>
    match rest with
    | '/' :: '/' :: hostEtc =>
      match schemeOf ps.1 with
      | none => none
      | some https => parseAfterScheme https hostEtc pq.2 frag
    | _ => none

/-- Parse an absolute http(s) URL string (as a character list): the fragment is
everything after the first `#`. -/
def parseChars (s : List Char) : Option Url :=
  let pf := splitAtFirst '#' s
  parseRest pf.1 pf.2

/-- Model of `new URL(s)` restricted to absolute http(s) URLs. -/
def parseUrl (s : String) : Option Url :=
  parseChars s.data

/-- Characters of the scheme as serialized. -/
def schemeChars (https : Bool) : List Char :=
  if https then ['h', 't', 't', 'p', 's'] else ['h', 't', 't', 'p']

/-- Serialization of a parsed URL, as `URL.prototype.toString` produces it on
this subset: `scheme://host[:port]path[?query][#frag]`. -/
def serializeChars (u : Url) : List Char :=
  schemeChars u.https ++ ':' :: '/' :: '/' ::
    (u.host ++
      ((match u.port with
        | none => []
        | some p => ':' :: Nat.toDigits 10 p) ++
        (u.path ++
          ((match u.query with
            | none => []
            | some q => '?' :: q) ++
            (match u.frag with
             | none => []
             | some f => '#' :: f)))))

/-- The four tracking query parameters deleted by `normalizeUrl`
(src/server.js:326-329). -/
def trackingParams : List (List Char) :=
  [['u', 't', 'm', '_', 's', 'o', 'u', 'r', 'c', 'e'],
   ['u', 't', 'm', '_', 'm', 'e', 'd', 'i', 'u', 'm'],
   ['u', 't', 'm', '_', 'c', 'a', 'm', 'p', 'a', 'i', 'g', 'n'],
   ['r', 'e', 'f']]

/-- Name of a query parameter: the characters before the first `=`. -/
def paramName (part : List Char) : List Char :=
  (splitAtFirst '=' part).1

/-- Whether a query-string part is one of the tracking parameters. -/
def isTracked (part : List Char) : Bool :=
  trackingParams.contains (paramName part)

/-- A query-string part survives tracking-parameter deletion when it is
nonempty (URLSearchParams drops empty pieces) and not a tracking parameter. -/
def keptParam (part : List Char) : Bool :=
  !part.isEmpty && !isTracked part

/-- Model of `url.searchParams.delete` applied to the four tracking parameters
followed by re-serialization: split the query on `&`, keep the surviving
pieces, and drop the query entirely when nothing remains
(src/server.js:326-329). -/
def deleteTracking : Option (List Char) → Option (List Char)
  | none => none
  | some qs =>
    if (splitAll '&' qs).filter keptParam = [] then none
    else some (joinSep '&' ((splitAll '&' qs).filter keptParam))

/-- Model of the trailing-slash rule of `normalizeUrl` (src/server.js:316-318):
drop the final character when the path ends with `/` and is not the root path.
Note a single call removes only one slash. -/
def dropTrailingSlash (p : List Char) : List Char :=
  if p ≠ ['/'] ∧ p.getLast? = some '/' then p.dropLast else p

/-- The mutations `normalizeUrl` performs on a parsed URL (src/server.js:313-329):
force the https scheme, apply the trailing-slash rule, remove the port,
lowercase the host, drop the fragment, and delete the tracking parameters. -/
def normUrl (u : Url) : Url :=
  { https := true, host := lowerChars u.host, port := none,
    path := dropTrailingSlash u.path, query := deleteTracking u.query,
    frag := none }

/-- Model of `normalizeUrl` (src/server.js:310-334): parse, apply the
normalizing mutations, and serialize; return the input unchanged when parsing
fails. -/
def normalizeUrl (s : String) : String :=
  match parseChars s.data with
  | none => s
  | some u => String.mk (serializeChars (normUrl u))

/-- Model of `url.split('#')[0]` (src/server.js:398): the characters before the
first `#`. -/
def stripFragment (s : String) : String :=
  String.mk (splitAtFirst '#' s.data).1

/-- Model of `hostname.replace(/^www\., '')` (src/server.js:381 and 390): strip
one leading `www.` from a hostname. -/
def stripWww (h : List Char) : List Char :=
  match h with
  | 'w' :: 'w' :: 'w' :: '.' :: rest => rest
  | _ => h

/-- Model of `getInternalLinks` (src/server.js:378-399).  `hrefs` is the array
of `link.href` strings of the rendered page (absolute URLs, as the browser
resolves them); `baseUrl` is the page's URL.  `new URL(baseUrl)` throwing is
modelled as `none` (the /api/scan loop catches it as a page-audit error).  A
href is kept when it parses and its hostname equals the base hostname after
stripping a leading `www.` from both; kept hrefs have their fragment removed. -/
def getInternalLinks (hrefs : List String) (baseUrl : String) :
    Option (List String) :=
  match parseUrl baseUrl with
  | none => none
  | some b =>
    some (((hrefs.filter fun h =>
      match parseUrl h with
      | none => false
      | some hu => stripWww hu.host = stripWww b.host)).map stripFragment)

/-- Crawl frontier state of the /api/scan handler: the `visited` and `toVisit`
JS Sets (src/server.js:355-356), as insertion-ordered duplicate-free lists. -/
structure CrawlState where
  visited : List String
  toVisit : List String
deriving DecidableEq, Repr

/-- JS `Set.prototype.add`: append the element unless already present. -/
def setAdd (l : List String) (x : String) : List String :=
  if x ∈ l then l else l ++ [x]

/-- Model of the link-enqueueing loop (src/server.js:497-500): for each raw
link, normalize it and add it to `toVisit` unless the normalized form is
already in `visited`. -/
def enqueueLinks (visited toVisit : List String) (links : List String) :
    List String :=
  links.foldl
    (fun acc link =>
      let n := normalizeUrl link
      if n ∈ visited then acc else setAdd acc n)
    toVisit

/-- One iteration of the crawl `while` loop body (src/server.js:401-508).
`hrefs u` gives the anchor hrefs of the page at `u`; `ok u` says whether the
page audit reaches the link-extraction point without throwing (navigation,
axe-core evaluation and the other awaits are collaborator calls; any of them
throwing lands in the catch at line 505, which only logs).  The head of
`toVisit` is `Array.from(toVisit)[0]`; it is deleted, skipped when already
visited, and on a successful audit the discovered links are enqueued and the
normalized current URL is added to `visited` (in that order, as in the source). -/
def crawlStep (hrefs : String → List String) (ok : String → Bool)
    (s : CrawlState) : CrawlState :=
  match s.toVisit with
  | [] => s
  | currentUrl :: rest =>
    if currentUrl ∈ s.visited then { visited := s.visited, toVisit := rest }
    else if ok currentUrl then
      match getInternalLinks (hrefs currentUrl) currentUrl with
      | some links =>
        { visited := setAdd s.visited (normalizeUrl currentUrl),
          toVisit := enqueueLinks s.visited rest links }
      | none => { visited := s.visited, toVisit := rest }
    else { visited := s.visited, toVisit := rest }

/-- Negation of the `while` guard (src/server.js:401): the loop is done when
the frontier is empty or the visited count has reached the page limit. -/
def crawlDone (pageLimit : Nat) (s : CrawlState) : Bool :=
  s.toVisit.isEmpty || pageLimit ≤ s.visited.length

/-- Fuel-indexed runner of the crawl loop: returns the final state if the loop
guard fails within `fuel` iterations, `none` when the fuel is exhausted with
the guard still true.  The loop of src/server.js terminates on exactly the
inputs for which some fuel suffices. -/
def crawlAux (hrefs : String → List String) (ok : String → Bool)
    (pageLimit : Nat) : Nat → CrawlState → Option CrawlState
  | 0, s => if crawlDone pageLimit s then some s else none
  | n + 1, s =>
    if crawlDone pageLimit s then some s
    else crawlAux hrefs ok pageLimit n (crawlStep hrefs ok s)

/-- Initial frontier state (src/server.js:355-356): empty visited set, the
normalized seed as the only pending URL. -/
def crawlInit (seed : String) : CrawlState :=
  { visited := [], toVisit := [normalizeUrl seed] }

/-- Link graph exhibiting the trailing-slash normalization defect: every page
links to `https://example.com/a//`. -/
def loopHrefs : String → List String :=
  fun _ => ["https://example.com/a//"]

/-- Page-audit oracle under which every navigation succeeds. -/
def loopOk : String → Bool :=
  fun _ => true

/-- The state the crawl reaches after one iteration from seed
`https://example.com/a//`, and never leaves. -/
def loopState : CrawlState :=
  { visited := ["https://example.com/a"], toVisit := ["https://example.com/a/"] }

/-- Violation record as accumulated by the scan loop (src/server.js:473-488);
only the fields the claims mention are carried. -/
structure Violation where
  rule_id : String
  impact : String
  description : String
  element_selector : String
deriving DecidableEq, Repr

/-- A parsed AI explanation: stands for the JSON object extracted from the
model's response text (src/server.js:100-104).  Its internal shape is the
collaborator's; only its presence or absence matters to the claims. -/
structure Explanation where
  body : String
deriving DecidableEq, Repr

/-- A violation after enrichment: the original record plus the
`ai_explanation` field added at src/server.js:133-136 (`none` models JS null). -/
structure EnrichedViolation where
  v : Violation
  ai_explanation : Option Explanation
deriving DecidableEq, Repr

/-- Distinct rule ids in first-occurrence order: the keys of the
`violationsByRule` object built at src/server.js:67-73 (JS objects keep string
keys in insertion order). -/
def groupRuleIds (vs : List Violation) : List String :=
  vs.foldl (fun acc v => if v.rule_id ∈ acc then acc else acc ++ [v.rule_id]) []

/-- Outcome of the per-rule explanation block (src/server.js:79-111) for each
rule id, as delivered by the call oracle `aiCall`: `some e` when the external
call returned and a JSON object was extracted and parsed, `none` when the call
threw or no parseable JSON was found (the inner catch and the null returns). -/
def explanationEntries (aiCall : String → Option Explanation)
    (vs : List Violation) : List (String × Option Explanation) :=
  (groupRuleIds vs).map fun r => (r, aiCall r)

/-- The `explanationMap` object (src/server.js:125-130): only rules whose
explanation is non-null get an entry. -/
def explanationMap (aiCall : String → Option Explanation)
    (vs : List Violation) : List (String × Explanation) :=
  (explanationEntries aiCall vs).filterMap fun re => re.2.map fun e => (re.1, e)

/-- Lookup in the explanation map; a missing key is JS
`explanationMap[v.rule_id] || null`, i.e. `none`. -/
def lookupExpl (m : List (String × Explanation)) (r : String) :
    Option Explanation :=
  (m.find? fun p => p.1 = r).map fun p => p.2

/-- Model of `explainViolations` (src/server.js:62-142): empty input returns
the empty list; otherwise every violation is annotated with its rule's entry
in the explanation map (null when absent).  The oracle `aiCall` stands for the
net outcome of the external call plus JSON extraction for each rule id. -/
def explainViolations (aiCall : String → Option Explanation)
    (vs : List Violation) : List EnrichedViolation :=
  if vs.length = 0 then []
  else
    let m := explanationMap aiCall vs
    vs.map fun v => { v := v, ai_explanation := lookupExpl m v.rule_id }

/-- Externally observable events of the enrichment pipeline: an external call
being initiated, a completed call being awaited, and a pacing delay. -/
inductive AiEvent where
  | callStart (ruleId : String)
  | awaitDone (ruleId : String)
  | delayMs (ms : Nat)
deriving DecidableEq, Repr

/-- The await phase of `explainViolations` (src/server.js:115-122): the for
loop awaits the already-created promises in order, sleeping 500ms before every
await except the first. -/
def awaitPhase : List String → List AiEvent
  | [] => []
  | r :: rest =>
    AiEvent.awaitDone r ::
      rest.flatMap fun r2 => [AiEvent.delayMs 500, AiEvent.awaitDone r2]

/-- Event trace of `explainViolations` for rule ids `rs`, in JS evaluation
order: `Object.entries(violationsByRule).map(async ...)` (src/server.js:78)
runs each async arrow synchronously up to its first await, so the
`anthropic.messages.create` call of every rule is initiated during the map
pass, before the for loop at src/server.js:116 runs; the loop then only awaits
the promises, with the 500ms sleeps between awaits. -/
def explainTraceEvents (rs : List String) : List AiEvent :=
  rs.map AiEvent.callStart ++ awaitPhase rs

/-- Operations of the page-audit try block, in source order
(src/server.js:408-503).  `extractData`, `addScriptTag` and `runAxe` stand for
the awaits between navigation and link extraction. -/
inductive AuditOp where
  | newPage
  | setViewport
  | goto
  | extractData
  | addScriptTag
  | runAxe
  | recordViolations
  | getLinks
  | enqueue
  | markVisited
  | closePage
deriving DecidableEq, Repr

/-- The audit operations in the order the try block runs them; `closePage`
(src/server.js:503) is the last operation of the block. -/
def auditOps : List AuditOp :=
  [AuditOp.newPage, AuditOp.setViewport, AuditOp.goto, AuditOp.extractData,
   AuditOp.addScriptTag, AuditOp.runAxe, AuditOp.recordViolations,
   AuditOp.getLinks, AuditOp.enqueue, AuditOp.markVisited, AuditOp.closePage]

/-- Operations actually executed for one dequeued URL: all of them when no
operation throws, and only the first `k` when operation `k` throws — the throw
transfers control to the catch at src/server.js:505-507, which logs and runs
nothing else (in particular it never calls `page.close()`). -/
def executedAuditOps (failAt : Option Nat) : List AuditOp :=
  match failAt with
  | none => auditOps
  | some k => auditOps.take k

/-- Enrichment level derived from the plan (src/server.js:352-353). -/
inductive AiLevel where
  | levelNone
  | basic
  | advanced
deriving DecidableEq, Repr

/-- Model of the `aiLevel` ternary (src/server.js:352-353): `plan === 'free'`
gives none, `plan === 'guest'` gives basic, anything else — including a
missing or empty plan — gives advanced.  `Option.none` models an absent field. -/
def aiLevel (plan : Option String) : AiLevel :=
  if plan = some "free" then AiLevel.levelNone
  else if plan = some "guest" then AiLevel.basic
  else AiLevel.advanced

/-- Model of the `pageLimit` expression (src/server.js:349):
`max_pages && max_pages > 0 ? Math.min(max_pages, 50) : 50`.  A missing field
and the falsy 0 both take the default branch; negative values fail the `> 0`
test. -/
def pageLimit (max_pages : Option Int) : Nat :=
  match max_pages with
  | none => 50
  | some m => if 0 < m then min m.toNat 50 else 50

/-- JS falsiness for the request's string fields: absent (undefined/null) or
the empty string. -/
def isBlank : Option String → Bool
  | none => true
  | some s => s = ""

/-- The /api/scan request body (src/server.js:338), fields optional as in any
JSON body. -/
structure ScanRequest where
  website_url : Option String
  customer_id : Option String
  scan_id : Option String
  email : Option String
  company_name : Option String
  plan : Option String
  max_pages : Option Int
deriving DecidableEq, Repr

/-- Outcome of the handler prologue (src/server.js:340-353): either a 400
validation rejection with the error message, or the computed page limit and
enrichment level with which the handler proceeds. -/
inductive HandlerStart where
  | reject (statusCode : Nat) (error : String)
  | proceed (limit : Nat) (level : AiLevel)
deriving DecidableEq, Repr

/-- Model of the request validation and setup (src/server.js:340-353): a falsy
`website_url` is rejected first, then a falsy `scan_id`; no other field is
validated. -/
def handlerStart (r : ScanRequest) : HandlerStart :=
  if isBlank r.website_url then HandlerStart.reject 400 "website_url is required"
  else if isBlank r.scan_id then HandlerStart.reject 400 "scan_id is required"
  else HandlerStart.proceed (pageLimit r.max_pages) (aiLevel r.plan)

/-- Coarse handler phases after the prologue: a validation rejection responds
immediately; otherwise the browser is launched (src/server.js:365) and the
crawl loop entered (src/server.js:401). -/
inductive HandlerOp where
  | respondValidationError
  | launchBrowser
  | enterCrawlLoop
deriving DecidableEq, Repr

/-- Operations the handler performs up to the crawl loop, by prologue outcome:
the two validation returns precede `puppeteer.launch`, so a rejection performs
no browser launch and visits no page. -/
def handlerPrefixOps (r : ScanRequest) : List HandlerOp :=
  match handlerStart r with
  | HandlerStart.reject _ _ => [HandlerOp.respondValidationError]
  | HandlerStart.proceed _ _ =>
    [HandlerOp.launchBrowser, HandlerOp.enterCrawlLoop]

/-- The `error_details` text of the unreachable-site response
(src/server.js:564). -/
def unreachableMsg : String :=
  "The website could not be reached. Please check that the URL is correct and the website is accessible. Common issues: invalid domain, website is down, or website blocks automated scanning."

/-- The two response shapes the handler produces after the crawl
(src/server.js:560-606): the unreachable-site failure and the completed scan. -/
inductive ScanOutcome where
  | unreachable (statusCode : Nat) (success : Bool) (error : String)
    (error_details : String) (pages_scanned : Nat)
  | completed (statusCode : Nat) (success : Bool) (pages_scanned : Nat)
    (violations : List EnrichedViolation) (total_violations : Nat)
    (complianceScore : Int)
deriving DecidableEq, Repr

/-- The `success` field of either response shape. -/
def ScanOutcome.isSuccess : ScanOutcome → Bool
  | ScanOutcome.unreachable _ s _ _ _ => s
  | ScanOutcome.completed _ s _ _ _ _ => s

/-- Model of the result assembly (src/server.js:557-606): when the visited set
is empty a 400 unreachable-site failure is returned (the AI enrichment that
already ran is discarded); otherwise the 200 success response carries the
enriched violations, the counts and the compliance score
`Math.max(0, 100 - violations.length * 5)`. -/
def buildScanResponse (visited : List String)
    (enriched : List EnrichedViolation) (violations : List Violation) :
    ScanOutcome :=
  if visited.length = 0 then
    ScanOutcome.unreachable 400 false "Unable to access website" unreachableMsg 0
  else
    ScanOutcome.completed 200 true visited.length enriched violations.length
      (max 0 (100 - 5 * (violations.length : Int)))

/-- Whether a path ends in two (or more) slashes — the configurations on which
a single application of the trailing-slash rule leaves another trailing slash. -/
def twoSlashSuffix (p : List Char) : Bool :=
  match p.reverse with
  | '/' :: '/' :: _ => true
  | _ => false

/-- Invariants of every URL record the parser produces: nonempty lowercase
host free of delimiter characters, a path that starts with `/` and contains no
query or fragment delimiter, and a query free of the fragment delimiter. -/
structure UrlInv (u : Url) : Prop where
  host_ne : u.host ≠ []
  host_chars : ∀ c ∈ u.host, c ≠ '/' ∧ c ≠ ':' ∧ c ≠ '?' ∧ c ≠ '#'
  host_lower : lowerChars u.host = u.host
  path_slash : ∃ r, u.path = '/' :: r
  path_chars : ∀ c ∈ u.path, c ≠ '?' ∧ c ≠ '#'
  query_chars : ∀ q, u.query = some q → ∀ c ∈ q, c ≠ '#'

/-- The URL string parses and its hostname equals the given seed hostname
after stripping a leading `www.` from both sides. -/
def sameSeedHost (seedHost : List Char) (u : String) : Prop :=
  ∃ pu, parseUrl u = some pu ∧ stripWww pu.host = stripWww seedHost

/-- Crawl-frontier invariant: every pending URL is on the seed's host
(post-www-stripping). -/
def HostInv (seedHost : List Char) (s : CrawlState) : Prop :=
  ∀ u ∈ s.toVisit, sameSeedHost seedHost u

/-- Call oracle in which exactly the `image-alt` rule's explanation call fails. -/
def c3aiCall : String → Option Explanation :=
  fun r => if r = "image-alt" then none else some { body := "parsed explanation" }

/-- Two violations with distinct rule ids, for the enrichment-isolation witness. -/
def c3vs : List Violation :=
  [{ rule_id := "image-alt", impact := "critical", description := "d1",
     element_selector := "img" },
   { rule_id := "link-name", impact := "serious", description := "d2",
     element_selector := "a" }]

/-- Two violations with distinct rule ids, exercising the enrichment trace. -/
def c4vs : List Violation :=
  [{ rule_id := "color-contrast", impact := "serious", description := "d1",
     element_selector := "p" },
   { rule_id := "image-alt", impact := "critical", description := "d2",
     element_selector := "img" }]

/-- Parse of `https://example.com/a`, for the idempotence witness. -/
def c7url : Url :=
  { https := true,
    host := ['e', 'x', 'a', 'm', 'p', 'l', 'e', '.', 'c', 'o', 'm'],
    port := none, path := ['/', 'a'], query := none, frag := none }

/-- Parse of `https://example.com/`, for the same-host witness. -/
def c6seedU : Url :=
  { https := true,
    host := ['e', 'x', 'a', 'm', 'p', 'l', 'e', '.', 'c', 'o', 'm'],
    port := none, path := ['/'], query := none, frag := none }

/-- A request carrying `website_url` and `scan_id` but no `customer_id` and no
`plan`. -/
def c9req : ScanRequest :=
  { website_url := some "https://example.com", customer_id := none,
    scan_id := some "SCAN_123", email := none, company_name := none,
    plan := none, max_pages := none }

/-- A request missing `website_url`, for the validation witness. -/
def c9reqBlank : ScanRequest :=
  { website_url := none, customer_id := some "cust_1",
    scan_id := some "SCAN_123", email := none, company_name := none,
    plan := some "free", max_pages := none }

/-- A character built from a valid code point has that code point. -/
theorem char_toNat_ofNat_lt (n : Nat) (h : n < 55296) :
    (Char.ofNat n).toNat = n := by
  rw [Char.ofNat, dif_pos (Or.inl h)]
  rfl

/-- Lowercasing is idempotent on characters. -/
theorem char_toLower_toLower (c : Char) :
    Char.toLower (Char.toLower c) = Char.toLower c := by
  unfold Char.toLower
  by_cases h : c.toNat ≥ 65 ∧ c.toNat ≤ 90
  · rw [if_pos h]
    have ht : (Char.ofNat (c.toNat + 32)).toNat = c.toNat + 32 :=
      char_toNat_ofNat_lt _ (by omega)
    rw [if_neg (by omega)]
  · rw [if_neg h, if_neg h]

/-- A character lowercasing to a code point below 97 already was that
character: lowercase output differing from the input lies in the range 97-122. -/
theorem char_toLower_eq_low (c d : Char) (hd : d.toNat < 97)
    (h : Char.toLower c = d) : c = d := by
  unfold Char.toLower at h
  by_cases hc : c.toNat ≥ 65 ∧ c.toNat ≤ 90
  · rw [if_pos hc] at h
    have ht : (Char.ofNat (c.toNat + 32)).toNat = c.toNat + 32 :=
      char_toNat_ofNat_lt _ (by omega)
    have := congrArg Char.toNat h
    omega
  · rwa [if_neg hc] at h

/-- Lowercasing a character list is idempotent. -/
theorem lowerChars_idem (l : List Char) :
    lowerChars (lowerChars l) = lowerChars l := by
  simp only [lowerChars, List.map_map]
  exact List.map_congr_left fun c _ => char_toLower_toLower c

/-- Membership of a low-code-point character passes from the lowercased list
back to the original. -/
theorem mem_of_mem_lowerChars (l : List Char) (d : Char) (hd : d.toNat < 97)
    (h : d ∈ lowerChars l) : d ∈ l := by
  simp only [lowerChars, List.mem_map] at h
  obtain ⟨c, hc, hcd⟩ := h
  rwa [char_toLower_eq_low c d hd hcd] at hc

/-- The prefix returned by `splitAtFirst` never contains the split character. -/
theorem splitAtFirst_fst_not_mem (c : Char) (l : List Char) :
    c ∉ (splitAtFirst c l).1 := by
  induction l with
  | nil => simp [splitAtFirst]
  | cons x xs ih =>
    by_cases h : x = c
    · simp [splitAtFirst, h]
    · simp only [splitAtFirst, if_neg h, List.mem_cons]
      rintro (h1 | h2)
      · exact h h1.symm
      · exact ih h2

/-- Members of the `splitAtFirst` prefix are members of the input. -/
theorem mem_of_splitAtFirst_fst (c : Char) (l : List Char) (x : Char)
    (h : x ∈ (splitAtFirst c l).1) : x ∈ l := by
  induction l with
  | nil => simp [splitAtFirst] at h
  | cons y ys ih =>
    by_cases hy : y = c
    · simp [splitAtFirst, hy] at h
    · simp only [splitAtFirst, if_neg hy, List.mem_cons] at h
      rcases h with h | h
      · exact h ▸ List.mem_cons_self y ys
      · exact List.mem_cons_of_mem y (ih h)

/-- Members of the `splitAtFirst` remainder are members of the input. -/
theorem mem_of_splitAtFirst_snd (c : Char) (l : List Char) (b : List Char)
    (hb : (splitAtFirst c l).2 = some b) (x : Char) (h : x ∈ b) : x ∈ l := by
  induction l generalizing b with
  | nil => simp [splitAtFirst] at hb
  | cons y ys ih =>
    by_cases hy : y = c
    · simp only [splitAtFirst, if_pos hy, Option.some.injEq] at hb
      subst hb
      exact List.mem_cons_of_mem y h
    · simp only [splitAtFirst, if_neg hy] at hb
      exact List.mem_cons_of_mem y (ih b hb h)

/-- When the split character is absent, `splitAtFirst` returns the whole list
and no remainder. -/
theorem splitAtFirst_of_not_mem (c : Char) (l : List Char) (h : c ∉ l) :
    splitAtFirst c l = (l, none) := by
  induction l with
  | nil => rfl
  | cons x xs ih =>
    have hx : ¬ x = c := fun he => h (he ▸ List.mem_cons_self x xs)
    have hxs : c ∉ xs := fun hm => h (List.mem_cons_of_mem x hm)
    simp [splitAtFirst, hx, ih hxs]

/-- Splitting `a ++ c :: b` at the first `c` with `c ∉ a` recovers `a` and `b`. -/
theorem splitAtFirst_append_cons (c : Char) (a b : List Char) (h : c ∉ a) :
    splitAtFirst c (a ++ c :: b) = (a, some b) := by
  induction a with
  | nil => simp [splitAtFirst]
  | cons x xs ih =>
    have hx : ¬ x = c := fun he => h (he ▸ List.mem_cons_self x xs)
    have hxs : c ∉ xs := fun hm => h (List.mem_cons_of_mem x hm)
    simp [splitAtFirst, hx, ih hxs]

/-- Unfolding equation of `splitAll` on a cons cell. -/
theorem splitAll_cons (c x : Char) (xs : List Char) :
    splitAll c (x :: xs) =
      match splitAll c xs with
      | [] => [[]]
      | h :: t => if x = c then [] :: h :: t else (x :: h) :: t := rfl

/-- The piece list returned by `splitAll` is never empty. -/
theorem splitAll_ne_nil (c : Char) (l : List Char) : splitAll c l ≠ [] := by
  induction l with
  | nil => simp [splitAll]
  | cons x xs ih =>
    rw [splitAll_cons]
    rcases hs : splitAll c xs with _ | ⟨h, t⟩
    · simp
    · by_cases hx : x = c <;> simp [hx]

/-- Splitting a separator-free list yields that single piece. -/
theorem splitAll_of_not_mem (c : Char) (l : List Char) (h : c ∉ l) :
    splitAll c l = [l] := by
  induction l with
  | nil => rfl
  | cons y ys ih =>
    have hy : ¬ y = c := fun he => h (he ▸ List.mem_cons_self y ys)
    have hys : c ∉ ys := fun hm => h (List.mem_cons_of_mem y hm)
    rw [splitAll_cons, ih hys]
    simp [hy]

/-- Splitting `a ++ c :: b` on every `c`, with `c ∉ a`, peels off `a`. -/
theorem splitAll_append_cons (c : Char) (a b : List Char) (h : c ∉ a) :
    splitAll c (a ++ c :: b) = a :: splitAll c b := by
  induction a with
  | nil =>
    rw [List.nil_append, splitAll_cons]
    rcases hb : splitAll c b with _ | ⟨p, ps⟩
    · exact absurd hb (splitAll_ne_nil c b)
    · simp
  | cons y ys ih =>
    have hy : ¬ y = c := fun he => h (he ▸ List.mem_cons_self y ys)
    have hys : c ∉ ys := fun hm => h (List.mem_cons_of_mem y hm)
    rw [List.cons_append, splitAll_cons, ih hys]
    simp [hy]

/-- No piece returned by `splitAll` contains the separator. -/
theorem splitAll_sep_not_mem (c : Char) (l : List Char) (p : List Char)
    (hp : p ∈ splitAll c l) : c ∉ p := by
  induction l generalizing p with
  | nil =>
    simp only [splitAll, List.mem_singleton] at hp
    subst hp
    simp
  | cons x xs ih =>
    rcases hs : splitAll c xs with _ | ⟨h, t⟩
    · exact absurd hs (splitAll_ne_nil c xs)
    · have hp2 : p ∈ (if x = c then [] :: h :: t else (x :: h) :: t) := by
        rw [splitAll_cons, hs] at hp
        exact hp
      by_cases hx : x = c
      · rw [if_pos hx] at hp2
        rcases List.mem_cons.mp hp2 with hp3 | hp3
        · subst hp3; simp
        · exact ih p (hs ▸ hp3)
      · rw [if_neg hx] at hp2
        rcases List.mem_cons.mp hp2 with hp3 | hp3
        · subst hp3
          intro hc
          rcases List.mem_cons.mp hc with hc | hc
          · exact hx hc.symm
          · exact ih h (hs ▸ List.mem_cons_self h t) hc
        · exact ih p (hs ▸ List.mem_cons_of_mem h hp3)

/-- Members of a `splitAll` piece are members of the input. -/
theorem mem_of_splitAll (c : Char) (l : List Char) (p : List Char)
    (hp : p ∈ splitAll c l) (x : Char) (hx : x ∈ p) : x ∈ l := by
  induction l generalizing p with
  | nil =>
    simp only [splitAll, List.mem_singleton] at hp
    subst hp
    simp at hx
  | cons y ys ih =>
    rcases hs : splitAll c ys with _ | ⟨h, t⟩
    · exact absurd hs (splitAll_ne_nil c ys)
    · have hp2 : p ∈ (if y = c then [] :: h :: t else (y :: h) :: t) := by
        rw [splitAll_cons, hs] at hp
        exact hp
      by_cases hy : y = c
      · rw [if_pos hy] at hp2
        rcases List.mem_cons.mp hp2 with hp3 | hp3
        · subst hp3; simp at hx
        · exact List.mem_cons_of_mem y (ih p (hs ▸ hp3) hx)
      · rw [if_neg hy] at hp2
        rcases List.mem_cons.mp hp2 with hp3 | hp3
        · subst hp3
          rcases List.mem_cons.mp hx with hx2 | hx2
          · exact hx2 ▸ List.mem_cons_self y ys
          · exact List.mem_cons_of_mem y
              (ih h (hs ▸ List.mem_cons_self h t) hx2)
        · exact List.mem_cons_of_mem y
            (ih p (hs ▸ List.mem_cons_of_mem h hp3) hx)

/-- Members of a joined list are the separator or members of some piece. -/
theorem mem_joinSep (c : Char) (ps : List (List Char)) (x : Char)
    (h : x ∈ joinSep c ps) : x = c ∨ ∃ p ∈ ps, x ∈ p := by
  induction ps with
  | nil => simp [joinSep] at h
  | cons p ps ih =>
    rcases ps with _ | ⟨q, qs⟩
    · exact Or.inr ⟨p, List.mem_singleton.mpr rfl, h⟩
    · simp only [joinSep, List.mem_append, List.mem_cons] at h
      rcases h with h | h | h
      · exact Or.inr ⟨p, List.mem_cons_self p _, h⟩
      · exact Or.inl h
      · rcases ih h with h | ⟨r, hr, hxr⟩
        · exact Or.inl h
        · exact Or.inr ⟨r, List.mem_cons_of_mem p hr, hxr⟩

/-- Splitting undoes joining on nonempty separator-free piece lists. -/
theorem splitAll_joinSep (c : Char) (ps : List (List Char)) (hne : ps ≠ [])
    (hps : ∀ p ∈ ps, c ∉ p) : splitAll c (joinSep c ps) = ps := by
  induction ps with
  | nil => exact absurd rfl hne
  | cons p ps ih =>
    rcases ps with _ | ⟨q, qs⟩
    · exact splitAll_of_not_mem c p (hps p (List.mem_singleton.mpr rfl))
    · have hrec : splitAll c (joinSep c (q :: qs)) = q :: qs :=
        ih (by simp) fun r hr => hps r (List.mem_cons_of_mem p hr)
      have hp : c ∉ p := hps p (List.mem_cons_self p _)
      show splitAll c (p ++ c :: joinSep c (q :: qs)) = p :: q :: qs
      rw [splitAll_append_cons c p _ hp, hrec]

/-- The trailing-slash rule keeps a path that starts with a slash starting
with a slash. -/
theorem dropTrailingSlash_slash (p : List Char) (r : List Char)
    (h : p = '/' :: r) : ∃ r2, dropTrailingSlash p = '/' :: r2 := by
  subst h
  unfold dropTrailingSlash
  by_cases hc : ('/' :: r : List Char) ≠ ['/'] ∧ ('/' :: r).getLast? = some '/'
  · rw [if_pos hc]
    rcases r with _ | ⟨b, r2⟩
    · exact (hc.1 rfl).elim
    · exact ⟨(b :: r2).dropLast, by simp⟩
  · rw [if_neg hc]
    exact ⟨r, rfl⟩

/-- Members of the trailing-slash-adjusted path are members of the path. -/
theorem mem_of_dropTrailingSlash (p : List Char) (x : Char)
    (h : x ∈ dropTrailingSlash p) : x ∈ p := by
  unfold dropTrailingSlash at h
  by_cases hc : p ≠ ['/'] ∧ p.getLast? = some '/'
  · rw [if_pos hc] at h
    exact List.dropLast_sublist p |>.mem h
  · rwa [if_neg hc] at h

/-- The trailing-slash rule is idempotent except when the path ends in a
double slash longer than the bare `//`. -/
theorem dropTrailingSlash_idem (p : List Char)
    (hp : twoSlashSuffix p = false ∨ p = ['/', '/']) :
    dropTrailingSlash (dropTrailingSlash p) = dropTrailingSlash p := by
  rcases List.eq_nil_or_concat' p with hn | ⟨L, b, hL⟩
  · subst hn
    simp [dropTrailingSlash]
  · subst hL
    by_cases hb : b = '/'
    · subst hb
      rcases List.eq_nil_or_concat' L with hLn | ⟨M, d, hM⟩
      · subst hLn
        simp [dropTrailingSlash]
      · subst hM
        have hne : (M ++ [d]) ++ ['/'] ≠ (['/'] : List Char) := by
          intro he
          have := congrArg List.length he
          simp at this
        have h1 : dropTrailingSlash ((M ++ [d]) ++ ['/']) = M ++ [d] := by
          unfold dropTrailingSlash
          rw [if_pos ⟨hne, by rw [List.getLast?_concat]⟩]
          rw [List.dropLast_concat]
        rw [h1]
        by_cases hd : d = '/'
        · subst hd
          rcases hp with hp2 | hp2
          · exfalso
            have ht : twoSlashSuffix ((M ++ ['/']) ++ ['/']) = true := by
              simp [twoSlashSuffix, List.reverse_append]
            rw [ht] at hp2
            exact absurd hp2 (by simp)
          · have hM0 : M = [] := by
              have hlen := congrArg List.length hp2
              simp at hlen
              simpa using hlen
            subst hM0
            simp [dropTrailingSlash]
        · unfold dropTrailingSlash
          rw [if_neg]
          intro hcon
          rw [List.getLast?_concat] at hcon
          exact hd (by simpa using hcon.2)
    · have h1 : dropTrailingSlash (L ++ [b]) = L ++ [b] := by
        unfold dropTrailingSlash
        rw [if_neg]
        intro hcon
        rw [List.getLast?_concat] at hcon
        exact hb (by simpa using hcon.2)
      rw [h1, h1]

/-- Deleting the tracking parameters is idempotent. -/
theorem deleteTracking_idem (q : Option (List Char)) :
    deleteTracking (deleteTracking q) = deleteTracking q := by
  rcases q with _ | qs
  · rfl
  · rcases hk : (splitAll '&' qs).filter keptParam with _ | ⟨k, ks⟩
    · have h1 : deleteTracking (some qs) = none := by
        show (if (splitAll '&' qs).filter keptParam = [] then none
          else some (joinSep '&' ((splitAll '&' qs).filter keptParam))) = none
        rw [hk]
        simp
      rw [h1]
      rfl
    · have h1 : deleteTracking (some qs) = some (joinSep '&' (k :: ks)) := by
        show (if (splitAll '&' qs).filter keptParam = [] then none
          else some (joinSep '&' ((splitAll '&' qs).filter keptParam))) =
            some (joinSep '&' (k :: ks))
        rw [hk]
        simp
      rw [h1]
      have hsep : ∀ p ∈ k :: ks, '&' ∉ p := fun p hp =>
        splitAll_sep_not_mem '&' qs p (List.mem_of_mem_filter (hk ▸ hp))
      have hsplit : splitAll '&' (joinSep '&' (k :: ks)) = k :: ks :=
        splitAll_joinSep '&' (k :: ks) (by simp) hsep
      have hfilter : (k :: ks).filter keptParam = k :: ks :=
        List.filter_eq_self.mpr fun p hp => List.of_mem_filter (hk ▸ hp)
      show (if (splitAll '&' (joinSep '&' (k :: ks))).filter keptParam = []
          then none
          else some (joinSep '&'
            ((splitAll '&' (joinSep '&' (k :: ks))).filter keptParam))) =
          some (joinSep '&' (k :: ks))
      rw [hsplit, hfilter]
      simp

/-- Every URL produced by `parseAfterScheme` satisfies the parser invariants,
provided the authority-and-path characters exclude the query and fragment
delimiters (they were split off earlier) and the query excludes the fragment
delimiter. -/
theorem parseAfterScheme_inv (https : Bool) (hostEtc : List Char)
    (query frag : Option (List Char)) (u : Url)
    (hEtc : ∀ c ∈ hostEtc, c ≠ '?' ∧ c ≠ '#')
    (hq : ∀ q, query = some q → ∀ c ∈ q, c ≠ '#')
    (h : parseAfterScheme https hostEtc query frag = some u) : UrlInv u := by
  simp only [parseAfterScheme] at h
  split at h
  · exact absurd h (by simp)
  · split at h
    · exact absurd h (by simp)
    · rename_i hne hport port hpeq
      rw [Option.some.injEq] at h
      subst h
      have hs1_sub_hp1 : ∀ c, c ∈ (splitAtFirst ':' (splitAtFirst '/' hostEtc).1).1 →
          c ∈ (splitAtFirst '/' hostEtc).1 := fun c hc =>
        mem_of_splitAtFirst_fst ':' _ c hc
      have hp1_sub : ∀ c, c ∈ (splitAtFirst '/' hostEtc).1 → c ∈ hostEtc := fun c hc =>
        mem_of_splitAtFirst_fst '/' _ c hc
      refine ⟨?_, ?_, ?_, ?_, ?_, ?_⟩
      · simpa [lowerChars, List.map_eq_nil_iff] using hne
      · intro c hc
        refine ⟨?_, ?_, ?_, ?_⟩
        · intro he
          subst he
          exact splitAtFirst_fst_not_mem '/' hostEtc
            (hs1_sub_hp1 _ (mem_of_mem_lowerChars _ _ (by decide) hc))
        · intro he
          subst he
          exact splitAtFirst_fst_not_mem ':' _
            (mem_of_mem_lowerChars _ _ (by decide) hc)
        · intro he
          subst he
          exact (hEtc _ (hp1_sub _ (hs1_sub_hp1 _
            (mem_of_mem_lowerChars _ _ (by decide) hc)))).1 rfl
        · intro he
          subst he
          exact (hEtc _ (hp1_sub _ (hs1_sub_hp1 _
            (mem_of_mem_lowerChars _ _ (by decide) hc)))).2 rfl
      · exact lowerChars_idem _
      · exact ⟨_, rfl⟩
      · intro c hc
        rcases List.mem_cons.mp hc with hc | hc
        · subst hc
          exact ⟨by decide, by decide⟩
        · rcases hsnd : (splitAtFirst '/' hostEtc).2 with _ | r
          · rw [hsnd] at hc
            simp at hc
          · rw [hsnd] at hc
            exact hEtc c (mem_of_splitAtFirst_snd '/' hostEtc r hsnd c hc)
      · exact hq

/-- Every URL produced by `parseRest` satisfies the parser invariants when the
input contains no fragment delimiter. -/
theorem parseRest_inv (bf : List Char) (frag : Option (List Char)) (u : Url)
    (hbf : '#' ∉ bf) (h : parseRest bf frag = some u) : UrlInv u := by
  simp only [parseRest] at h
  split at h
  · exact absurd h (by simp)
  · rename_i rest hrest
    split at h
    · rename_i hostEtc
      split at h
      · exact absurd h (by simp)
      · rename_i https hscheme
        have hsub1 : ∀ c, c ∈ hostEtc → c ∈ (splitAtFirst '?' bf).1 :=
          fun c hc =>
            mem_of_splitAtFirst_snd ':' _ _ hrest c
              (List.mem_cons_of_mem _ (List.mem_cons_of_mem _ hc))
        refine parseAfterScheme_inv https _ _ frag u ?_ ?_ h
        · intro c hc
          refine ⟨fun he => ?_, fun he => ?_⟩
          · subst he
            exact splitAtFirst_fst_not_mem '?' bf (hsub1 _ hc)
          · subst he
            exact hbf (mem_of_splitAtFirst_fst '?' bf _ (hsub1 _ hc))
        · intro q hq c hc he
          subst he
          exact hbf (mem_of_splitAtFirst_snd '?' bf q hq '#' hc)
    · exact absurd h (by simp)

/-- Every URL produced by the parser satisfies the parser invariants. -/
theorem parseChars_inv (s : List Char) (u : Url) (h : parseChars s = some u) :
    UrlInv u := by
  simp only [parseChars] at h
  exact parseRest_inv _ _ u (splitAtFirst_fst_not_mem '#' s) h

/-- Parsing the authority-and-path segment `host ++ '/' :: r` recovers the
host and path when the host is nonempty, slash-free, colon-free and already
lowercase. -/
theorem parseAfterScheme_roundtrip (https : Bool) (host r : List Char)
    (query frag : Option (List Char)) (hne : host ≠ [])
    (hnoslash : '/' ∉ host) (hnocolon : ':' ∉ host)
    (hlower : lowerChars host = host) :
    parseAfterScheme https (host ++ '/' :: r) query frag =
      some { https := https, host := host, port := none, path := '/' :: r,
             query := query, frag := frag } := by
  simp only [parseAfterScheme]
  rw [splitAtFirst_append_cons '/' host r hnoslash]
  rw [show ((host, some r) : List Char × Option (List Char)).1 = host from rfl]
  rw [splitAtFirst_of_not_mem ':' host hnocolon]
  simp [hne, hlower, parsePort]

/-- The scheme characters contain no URL delimiter characters. -/
theorem schemeChars_no_delim (https : Bool) (d : Char)
    (hd : d = ':' ∨ d = '/' ∨ d = '?' ∨ d = '#') : d ∉ schemeChars https := by
  rcases hd with h | h | h | h <;> subst h <;> cases https <;> decide

/-- Scheme recognition inverts scheme serialization. -/
theorem schemeOf_schemeChars (https : Bool) :
    schemeOf (schemeChars https) = some https := by
  cases https <;> decide

/-- Serialization followed by parsing is the identity on portless,
fragmentless URL records satisfying the parser invariants (explicit-field
form). -/
theorem parse_serialize_fields (https : Bool) (host r : List Char)
    (query : Option (List Char)) (hne : host ≠ [])
    (hchars : ∀ c ∈ host, c ≠ '/' ∧ c ≠ ':' ∧ c ≠ '?' ∧ c ≠ '#')
    (hlower : lowerChars host = host)
    (hpath : ∀ c ∈ ('/' :: r : List Char), c ≠ '?' ∧ c ≠ '#')
    (hq : ∀ q, query = some q → ∀ c ∈ q, c ≠ '#') :
    parseChars (serializeChars
      { https := https, host := host, port := none, path := '/' :: r,
        query := query, frag := none }) =
      some { https := https, host := host, port := none, path := '/' :: r,
             query := query, frag := none } := by
  have hrq : ∀ c ∈ r, c ≠ '?' ∧ c ≠ '#' := fun c hc =>
    hpath c (List.mem_cons_of_mem _ hc)
  rcases query with _ | q
  · have hser : serializeChars
        { https := https, host := host, port := none, path := '/' :: r,
          query := none, frag := none } =
        schemeChars https ++ ':' :: '/' :: '/' :: (host ++ '/' :: r) := by
      simp [serializeChars]
    rw [hser]
    have hnh : '#' ∉ schemeChars https ++ ':' :: '/' :: '/' :: (host ++ '/' :: r) := by
      intro hmem
      simp only [List.mem_append, List.mem_cons] at hmem
      rcases hmem with hs | h1 | h1 | h1 | hh | h1 | hr2
      · exact schemeChars_no_delim https '#' (by simp) hs
      · exact absurd h1 (by decide)
      · exact absurd h1 (by decide)
      · exact absurd h1 (by decide)
      · exact (hchars _ hh).2.2.2 rfl
      · exact absurd h1 (by decide)
      · exact (hrq _ hr2).2 rfl
    have hnq : '?' ∉ schemeChars https ++ ':' :: '/' :: '/' :: (host ++ '/' :: r) := by
      intro hmem
      simp only [List.mem_append, List.mem_cons] at hmem
      rcases hmem with hs | h1 | h1 | h1 | hh | h1 | hr2
      · exact schemeChars_no_delim https '?' (by simp) hs
      · exact absurd h1 (by decide)
      · exact absurd h1 (by decide)
      · exact absurd h1 (by decide)
      · exact (hchars _ hh).2.2.1 rfl
      · exact absurd h1 (by decide)
      · exact (hrq _ hr2).1 rfl
    simp only [parseChars]
    rw [splitAtFirst_of_not_mem '#' _ hnh]
    simp only [parseRest]
    rw [splitAtFirst_of_not_mem '?' _ hnq]
    rw [show ((schemeChars https ++ ':' :: '/' :: '/' :: (host ++ '/' :: r),
        (none : Option (List Char))) :
        List Char × Option (List Char)).1 =
        schemeChars https ++ ':' :: '/' :: '/' :: (host ++ '/' :: r) from rfl]
    rw [splitAtFirst_append_cons ':' (schemeChars https) _
      (schemeChars_no_delim https ':' (by simp))]
    simp only [schemeOf_schemeChars]
    exact parseAfterScheme_roundtrip https host r none none hne
      (fun hm => (hchars _ hm).1 rfl) (fun hm => (hchars _ hm).2.1 rfl) hlower
  · have hqc : ∀ c ∈ q, c ≠ '#' := hq q rfl
    have hser : serializeChars
        { https := https, host := host, port := none, path := '/' :: r,
          query := some q, frag := none } =
        (schemeChars https ++ ':' :: '/' :: '/' :: (host ++ '/' :: r)) ++ '?' :: q := by
      simp [serializeChars, List.append_assoc]
    rw [hser]
    have hnh : '#' ∉ (schemeChars https ++ ':' :: '/' :: '/' :: (host ++ '/' :: r)) ++ '?' :: q := by
      intro hmem
      simp only [List.mem_append, List.mem_cons] at hmem
      rcases hmem with (hs | h1 | h1 | h1 | hh | h1 | hr2) | h1 | hq2
      · exact schemeChars_no_delim https '#' (by simp) hs
      · exact absurd h1 (by decide)
      · exact absurd h1 (by decide)
      · exact absurd h1 (by decide)
      · exact (hchars _ hh).2.2.2 rfl
      · exact absurd h1 (by decide)
      · exact (hrq _ hr2).2 rfl
      · exact absurd h1 (by decide)
      · exact hqc _ hq2 rfl
    have hnqA : '?' ∉ schemeChars https ++ ':' :: '/' :: '/' :: (host ++ '/' :: r) := by
      intro hmem
      simp only [List.mem_append, List.mem_cons] at hmem
      rcases hmem with hs | h1 | h1 | h1 | hh | h1 | hr2
      · exact schemeChars_no_delim https '?' (by simp) hs
      · exact absurd h1 (by decide)
      · exact absurd h1 (by decide)
      · exact absurd h1 (by decide)
      · exact (hchars _ hh).2.2.1 rfl
      · exact absurd h1 (by decide)
      · exact (hrq _ hr2).1 rfl
    simp only [parseChars]
    rw [splitAtFirst_of_not_mem '#' _ hnh]
    simp only [parseRest]
    rw [splitAtFirst_append_cons '?' _ q hnqA]
    rw [show ((schemeChars https ++ ':' :: '/' :: '/' :: (host ++ '/' :: r),
        some q) : List Char × Option (List Char)).1 =
        schemeChars https ++ ':' :: '/' :: '/' :: (host ++ '/' :: r) from rfl]
    rw [splitAtFirst_append_cons ':' (schemeChars https) _
      (schemeChars_no_delim https ':' (by simp))]
    simp only [schemeOf_schemeChars]
    exact parseAfterScheme_roundtrip https host r (some q) none hne
      (fun hm => (hchars _ hm).1 rfl) (fun hm => (hchars _ hm).2.1 rfl) hlower

/-- Serialization followed by parsing is the identity on portless,
fragmentless URL records satisfying the parser invariants. -/
theorem parseChars_serializeChars (u : Url) (inv : UrlInv u)
    (hport : u.port = none) (hfrag : u.frag = none) :
    parseChars (serializeChars u) = some u := by
  obtain ⟨https, host, port, path, query, frag⟩ := u
  obtain ⟨r, hr⟩ := inv.path_slash
  have hr2 : path = '/' :: r := hr
  have hport2 : port = none := hport
  have hfrag2 : frag = none := hfrag
  subst hr2 hport2 hfrag2
  exact parse_serialize_fields https host r query inv.host_ne inv.host_chars
    inv.host_lower inv.path_chars inv.query_chars

/-- The normalizing mutations preserve the parser invariants. -/
theorem normUrl_inv (u : Url) (inv : UrlInv u) : UrlInv (normUrl u) := by
  obtain ⟨r, hr⟩ := inv.path_slash
  refine ⟨?_, ?_, ?_, ?_, ?_, ?_⟩
  · show lowerChars u.host ≠ []
    rw [inv.host_lower]
    exact inv.host_ne
  · show ∀ c ∈ lowerChars u.host, c ≠ '/' ∧ c ≠ ':' ∧ c ≠ '?' ∧ c ≠ '#'
    rw [inv.host_lower]
    exact inv.host_chars
  · exact lowerChars_idem _
  · exact dropTrailingSlash_slash u.path r hr
  · intro c hc
    exact inv.path_chars c (mem_of_dropTrailingSlash _ _ hc)
  · intro q hq c hc
    have hq0 : deleteTracking u.query = some q := hq
    rcases hu : u.query with _ | qs
    · rw [hu] at hq0
      exact absurd hq0 (by simp [deleteTracking])
    · rw [hu] at hq0
      rcases hk : (splitAll '&' qs).filter keptParam with _ | ⟨k, ks⟩
      · exfalso
        have hnone : deleteTracking (some qs) = none := by
          show (if (splitAll '&' qs).filter keptParam = [] then none
            else some (joinSep '&' ((splitAll '&' qs).filter keptParam))) = none
          rw [hk]
          simp
        rw [hnone] at hq0
        exact absurd hq0 (by simp)
      · have hsome : deleteTracking (some qs) = some (joinSep '&' (k :: ks)) := by
          show (if (splitAll '&' qs).filter keptParam = [] then none
            else some (joinSep '&' ((splitAll '&' qs).filter keptParam))) =
              some (joinSep '&' (k :: ks))
          rw [hk]
          simp
        rw [hsome] at hq0
        have hqj : joinSep '&' (k :: ks) = q := Option.some.inj hq0
        subst hqj
        rcases mem_joinSep '&' (k :: ks) c hc with hamp | ⟨p, hpk, hcp⟩
        · subst hamp
          decide
        · exact inv.query_chars qs hu c
            (mem_of_splitAll '&' qs p (List.mem_of_mem_filter (hk ▸ hpk)) c hcp)

/-- Parsing the normalized URL recovers exactly the normalized record. -/
theorem parse_normalize (s : String) (u : Url) (h : parseChars s.data = some u) :
    parseChars ((normalizeUrl s).data) = some (normUrl u) := by
  have inv := parseChars_inv s.data u h
  have e1 : normalizeUrl s = String.mk (serializeChars (normUrl u)) := by
    simp [normalizeUrl, h]
  rw [e1]
  show parseChars (serializeChars (normUrl u)) = some (normUrl u)
  exact parseChars_serializeChars _ (normUrl_inv u inv) rfl rfl

/-- The normalizing mutations are idempotent away from double-slash paths. -/
theorem normUrl_idem (u : Url)
    (hp : twoSlashSuffix u.path = false ∨ u.path = ['/', '/']) :
    normUrl (normUrl u) = normUrl u := by
  simp only [normUrl]
  rw [lowerChars_idem, deleteTracking_idem, dropTrailingSlash_idem u.path hp]

/-- Parsing the authority segment ignores the fragment except to store it. -/
theorem parseAfterScheme_frag (https : Bool) (hostEtc : List Char)
    (query f f2 : Option (List Char)) (u : Url)
    (h : parseAfterScheme https hostEtc query f = some u) :
    parseAfterScheme https hostEtc query f2 = some { u with frag := f2 } := by
  simp only [parseAfterScheme] at h ⊢
  split at h
  · exact absurd h (by simp)
  · rename_i hne
    rw [if_neg hne]
    split at h
    · exact absurd h (by simp)
    · rw [Option.some.injEq] at h
      subst h
      rfl

/-- Parsing the pre-fragment part ignores the fragment except to store it. -/
theorem parseRest_frag (bf : List Char) (f f2 : Option (List Char)) (u : Url)
    (h : parseRest bf f = some u) :
    parseRest bf f2 = some { u with frag := f2 } := by
  simp only [parseRest] at h ⊢
  split at h
  · exact absurd h (by simp)
  · split at h
    · split at h
      · exact absurd h (by simp)
      · exact parseAfterScheme_frag _ _ _ f f2 u h
    · exact absurd h (by simp)

/-- Parsing after `split('#')[0]` yields the same URL with the fragment
removed; in particular the host is unchanged. -/
theorem parseUrl_stripFragment (s : String) (u : Url)
    (h : parseUrl s = some u) :
    parseUrl (stripFragment s) = some { u with frag := none } := by
  have h2 : parseRest (splitAtFirst '#' s.data).1 (splitAtFirst '#' s.data).2 =
      some u := h
  have hd : (stripFragment s).data = (splitAtFirst '#' s.data).1 := rfl
  show parseChars (stripFragment s).data = some { u with frag := none }
  rw [hd]
  show parseRest (splitAtFirst '#' (splitAtFirst '#' s.data).1).1
      (splitAtFirst '#' (splitAtFirst '#' s.data).1).2 =
    some { u with frag := none }
  rw [splitAtFirst_of_not_mem '#' _ (splitAtFirst_fst_not_mem '#' s.data)]
  exact parseRest_frag _ _ none u h2

/-- Parsing the normalized URL succeeds and preserves the host. -/
theorem normalizeUrl_host (s : String) (u : Url) (h : parseUrl s = some u) :
    parseUrl (normalizeUrl s) = some (normUrl u) ∧ (normUrl u).host = u.host := by
  refine ⟨parse_normalize s u h, ?_⟩
  show lowerChars u.host = u.host
  exact (parseChars_inv s.data u h).host_lower

/-- Membership in a JS-Set add. -/
theorem mem_setAdd (l : List String) (x u : String) (h : u ∈ setAdd l x) :
    u ∈ l ∨ u = x := by
  unfold setAdd at h
  by_cases hx : x ∈ l
  · rw [if_pos hx] at h
    exact Or.inl h
  · rw [if_neg hx] at h
    rcases List.mem_append.mp h with h2 | h2
    · exact Or.inl h2
    · exact Or.inr (List.mem_singleton.mp h2)

/-- Every URL in the frontier after enqueueing was already pending or is the
normalization of a discovered link. -/
theorem mem_enqueueLinks (visited t links : List String) (u : String)
    (h : u ∈ enqueueLinks visited t links) :
    u ∈ t ∨ ∃ l ∈ links, u = normalizeUrl l := by
  induction links generalizing t with
  | nil => exact Or.inl h
  | cons l ls ih =>
    have h2 : u ∈ enqueueLinks visited
        (if normalizeUrl l ∈ visited then t else setAdd t (normalizeUrl l)) ls := h
    rcases ih _ h2 with hu | ⟨l2, hl2, hu⟩
    · by_cases hv : normalizeUrl l ∈ visited
      · rw [if_pos hv] at hu
        exact Or.inl hu
      · rw [if_neg hv] at hu
        rcases mem_setAdd t _ u hu with hu2 | hu2
        · exact Or.inl hu2
        · exact Or.inr ⟨l, List.mem_cons_self l ls, hu2⟩
    · exact Or.inr ⟨l2, List.mem_cons_of_mem l hl2, hu⟩

/-- Every link returned by `getInternalLinks` is a fragment-stripped href that
parses to the base host (post-www-stripping). -/
theorem mem_getInternalLinks (hrefs : List String) (baseUrl : String)
    (links : List String) (h : getInternalLinks hrefs baseUrl = some links)
    (l : String) (hl : l ∈ links) :
    ∃ b h0 hu, parseUrl baseUrl = some b ∧ h0 ∈ hrefs ∧ parseUrl h0 = some hu ∧
      stripWww hu.host = stripWww b.host ∧ l = stripFragment h0 := by
  unfold getInternalLinks at h
  rcases hb : parseUrl baseUrl with _ | b
  · rw [hb] at h
    exact absurd h (by simp)
  · rw [hb] at h
    rw [Option.some.injEq] at h
    subst h
    rcases List.mem_map.mp hl with ⟨h0, hh0, hmap⟩
    have hfil := List.of_mem_filter hh0
    have hmem := List.mem_of_mem_filter hh0
    rcases hu : parseUrl h0 with _ | hu2
    · rw [hu] at hfil
      simp at hfil
    · rw [hu] at hfil
      exact ⟨b, h0, hu2, rfl, hmem, hu, by simpa using hfil, hmap.symm⟩

/-- A predicate preserved by `crawlStep` holds of whatever final state the
crawl loop reaches. -/
theorem crawlAux_preserves (hrefs : String → List String) (ok : String → Bool)
    (L : Nat) (P : CrawlState → Prop)
    (hstep : ∀ s, P s → P (crawlStep hrefs ok s)) :
    ∀ n s final, P s → crawlAux hrefs ok L n s = some final → P final := by
  intro n
  induction n with
  | zero =>
    intro s final hP h
    simp only [crawlAux] at h
    split at h
    · exact (Option.some.inj h) ▸ hP
    · exact absurd h (by simp)
  | succ n ih =>
    intro s final hP h
    simp only [crawlAux] at h
    split at h
    · exact (Option.some.inj h) ▸ hP
    · exact ih _ final (hstep s hP) h

/-- C6: during a scan, a discovered link whose hostname differs from the
seed's hostname after stripping one leading `www.` from both sides is never
added to the pending set: the initial frontier satisfies the same-host
invariant, one crawl-loop iteration preserves it, and hence every final state
of the loop satisfies it — every URL ever enqueued shares the seed's host
post-www-stripping. -/
theorem enqueued_urls_share_seed_host (hrefs : String → List String)
    (ok : String → Bool) (seed : String) (seedU : Url)
    (hseed : parseUrl seed = some seedU) :
    HostInv seedU.host (crawlInit seed) ∧
      (∀ s, HostInv seedU.host s → HostInv seedU.host (crawlStep hrefs ok s)) ∧
      (∀ L n final, crawlAux hrefs ok L n (crawlInit seed) = some final →
        HostInv seedU.host final) := by
  have hinit : HostInv seedU.host (crawlInit seed) := by
    intro u hu
    have hu2 : u = normalizeUrl seed := by simpa [crawlInit] using hu
    subst hu2
    refine ⟨normUrl seedU, parse_normalize seed seedU hseed, ?_⟩
    show stripWww (lowerChars seedU.host) = stripWww seedU.host
    rw [(parseChars_inv seed.data seedU hseed).host_lower]
  have hstep : ∀ s, HostInv seedU.host s →
      HostInv seedU.host (crawlStep hrefs ok s) := by
    intro s hs u hu
    rcases htv : s.toVisit with _ | ⟨cu, rest⟩
    · simp only [crawlStep, htv] at hu
      exact hs u (htv ▸ hu)
    · have hrest : ∀ v ∈ rest, sameSeedHost seedU.host v := fun v hv =>
        hs v (htv ▸ List.mem_cons_of_mem cu hv)
      have hcu : sameSeedHost seedU.host cu :=
        hs cu (htv ▸ List.mem_cons_self cu rest)
      simp only [crawlStep, htv] at hu
      by_cases hvis : cu ∈ s.visited
      · rw [if_pos hvis] at hu
        exact hrest u hu
      · rw [if_neg hvis] at hu
        by_cases hok : ok cu
        · rw [if_pos hok] at hu
          rcases hgl : getInternalLinks (hrefs cu) cu with _ | links
          · rw [hgl] at hu
            exact hrest u hu
          · rw [hgl] at hu
            rcases mem_enqueueLinks s.visited rest links u hu with hu2 | ⟨l, hll, hu2⟩
            · exact hrest u hu2
            · obtain ⟨b, h0, hu3, hpb, hh0, hpu, hww, hlf⟩ :=
                mem_getInternalLinks (hrefs cu) cu links hgl l hll
              obtain ⟨pu, hpu2, hwwpu⟩ := hcu
              have hbpu : b = pu := Option.some.inj (hpb ▸ hpu2)
              subst hu2
              subst hlf
              have hstrip := parseUrl_stripFragment h0 hu3 hpu
              obtain ⟨hparse, hhost⟩ :=
                normalizeUrl_host (stripFragment h0) _ hstrip
              refine ⟨_, hparse, ?_⟩
              rw [hhost]
              show stripWww hu3.host = stripWww seedU.host
              rw [hww, hbpu]
              exact hwwpu
        · rw [if_neg hok] at hu
          exact hrest u hu
  exact ⟨hinit, hstep, fun L n final h =>
    crawlAux_preserves hrefs ok L (HostInv seedU.host) hstep n _ final hinit h⟩

/-- C6 witness: the same-host invariant instantiated at the concrete seed
`https://example.com/` with an empty link graph. -/
theorem enqueued_urls_share_seed_host_witness :
    parseUrl "https://example.com/" = some c6seedU ∧
      (HostInv c6seedU.host (crawlInit "https://example.com/") ∧
        (∀ s, HostInv c6seedU.host s →
          HostInv c6seedU.host (crawlStep (fun _ => []) (fun _ => true) s)) ∧
        (∀ L n final,
          crawlAux (fun _ => []) (fun _ => true) L n
            (crawlInit "https://example.com/") = some final →
          HostInv c6seedU.host final)) :=
  ⟨by decide, enqueued_urls_share_seed_host (fun _ => []) (fun _ => true)
    "https://example.com/" c6seedU (by decide)⟩

/-- C7 counterexample: `normalizeUrl` is not idempotent — on a path ending in
a double slash a single pass removes only one trailing slash, so a second
pass changes the string again. -/
theorem normalizeUrl_not_idempotent :
    normalizeUrl (normalizeUrl "https://example.com/a//") ≠
      normalizeUrl "https://example.com/a//" := by decide

/-- C7 (amended): for every URL string the normalizer can parse whose parsed
path does not end in a double slash (or is exactly the bare `//`),
normalizeUrl(normalizeUrl(u)) equals normalizeUrl(u). -/
theorem normalizeUrl_idempotent_no_double_slash (s : String) (u : Url)
    (h : parseUrl s = some u)
    (hp : twoSlashSuffix u.path = false ∨ u.path = ['/', '/']) :
    normalizeUrl (normalizeUrl s) = normalizeUrl s := by
  have h0 : parseChars s.data = some u := h
  have h1 : parseChars ((normalizeUrl s).data) = some (normUrl u) :=
    parse_normalize s u h0
  have unfolded : ∀ (t : String) (w : Url), parseChars t.data = some w →
      normalizeUrl t = String.mk (serializeChars (normUrl w)) := by
    intro t w hw
    simp [normalizeUrl, hw]
  rw [unfolded (normalizeUrl s) (normUrl u) h1, normUrl_idem u hp,
    unfolded s u h0]

/-- C7 witness: idempotence applied at the concrete URL
`https://example.com/a`. -/
theorem normalizeUrl_idempotent_witness :
    (parseUrl "https://example.com/a" = some c7url ∧
      twoSlashSuffix c7url.path = false) ∧
      normalizeUrl (normalizeUrl "https://example.com/a") =
        normalizeUrl "https://example.com/a" :=
  ⟨⟨by decide, by decide⟩,
    normalizeUrl_idempotent_no_double_slash "https://example.com/a" c7url
      (by decide) (Or.inl (by decide))⟩

/-- C8 counterexample: `normalizeUrl` does not strip `www.`, so the two
claimed-equivalent URLs normalize to different strings. -/
theorem normalizeUrl_www_counterexample :
    normalizeUrl "http://WWW.Example.com/a/" ≠
      normalizeUrl "https://example.com/a" := by decide

/-- C8 (amended): scheme forcing, case folding of the host, and
trailing-slash removal make `http://WWW.Example.com/a/` normalize to the same
canonical string as `https://www.example.com/a`; the `www.` prefix is
preserved, not stripped. -/
theorem normalizeUrl_case_slash_equivalence :
    normalizeUrl "http://WWW.Example.com/a/" =
      normalizeUrl "https://www.example.com/a" := by decide

/-- The crawl step from the seed `https://example.com/a//` reaches
`loopState` after one iteration. -/
theorem crawlStep_loopInit :
    crawlStep loopHrefs loopOk (crawlInit "https://example.com/a//") =
      loopState := by decide

/-- The state `loopState` is a fixed point of the crawl step: the dequeued URL
`https://example.com/a/` is not in the visited set (which holds
`https://example.com/a`), its link re-normalizes to itself and is re-enqueued,
and the visited set does not grow. -/
theorem crawlStep_loopState_fix :
    crawlStep loopHrefs loopOk loopState = loopState := by decide

/-- C1: the termination claim fails on the code.  With the default budget 50,
seed `https://example.com/a//`, and a link graph in which every page links to
`https://example.com/a//` (all pages loading successfully), the crawl loop
guard never becomes false: the fuel-indexed runner returns `none` for every
fuel, i.e. the `while` loop of /api/scan runs forever with one visited page
and a forever-nonempty pending set. -/
theorem crawl_loop_diverges (n : Nat) :
    crawlAux loopHrefs loopOk 50 n (crawlInit "https://example.com/a//") =
      none := by
  have hguard : ¬ (crawlDone 50 loopState = true) := by decide
  have hguard0 : ¬ (crawlDone 50 (crawlInit "https://example.com/a//") = true) := by
    decide
  have hfix : ∀ m, crawlAux loopHrefs loopOk 50 m loopState = none := by
    intro m
    induction m with
    | zero =>
      simp only [crawlAux]
      rw [if_neg hguard]
    | succ m ih =>
      simp only [crawlAux]
      rw [if_neg hguard, crawlStep_loopState_fix]
      exact ih
  cases n with
  | zero =>
    simp only [crawlAux]
    rw [if_neg hguard0]
  | succ n =>
    simp only [crawlAux]
    rw [if_neg hguard0, crawlStep_loopInit]
    exact hfix n

/-- C2: when the crawl loop ends with an empty visited set, the handler
returns the distinct unreachable-site failure — status 400, success false,
pages_scanned 0, and nonempty error_details — never an empty success
response. -/
theorem unreachable_site_failure (visited : List String)
    (enriched : List EnrichedViolation) (violations : List Violation)
    (h : visited = []) :
    buildScanResponse visited enriched violations =
        ScanOutcome.unreachable 400 false "Unable to access website"
          unreachableMsg 0 ∧
      (buildScanResponse visited enriched violations).isSuccess = false ∧
      unreachableMsg ≠ "" := by
  subst h
  exact ⟨rfl, rfl, by decide⟩

/-- C2 witness: the unreachable-site failure at the concrete empty crawl
outcome. -/
theorem unreachable_site_failure_witness :
    buildScanResponse [] [] [] =
        ScanOutcome.unreachable 400 false "Unable to access website"
          unreachableMsg 0 ∧
      (buildScanResponse [] [] []).isSuccess = false ∧
      unreachableMsg ≠ "" :=
  unreachable_site_failure [] [] [] rfl

/-- Keys already accumulated stay in the rule-id fold. -/
theorem mem_groupRuleIds_aux (vs : List Violation) (acc : List String)
    (r : String) (h : r ∈ acc) :
    r ∈ vs.foldl (fun a v => if v.rule_id ∈ a then a else a ++ [v.rule_id])
      acc := by
  induction vs generalizing acc with
  | nil => exact h
  | cons v vs ih =>
    simp only [List.foldl_cons]
    by_cases hv : v.rule_id ∈ acc
    · rw [if_pos hv]
      exact ih acc h
    · rw [if_neg hv]
      exact ih _ (List.mem_append_left _ h)

/-- Every violation's rule id appears in the rule-id fold. -/
theorem mem_groupRuleIds_general (vs : List Violation) (acc : List String)
    (v : Violation) (h : v ∈ vs) :
    v.rule_id ∈
      vs.foldl (fun a w => if w.rule_id ∈ a then a else a ++ [w.rule_id])
        acc := by
  induction vs generalizing acc with
  | nil => simp at h
  | cons w vs ih =>
    simp only [List.foldl_cons]
    rcases List.mem_cons.mp h with he | hm
    · subst he
      apply mem_groupRuleIds_aux
      by_cases hv : v.rule_id ∈ acc
      · rw [if_pos hv]
        exact hv
      · rw [if_neg hv]
        exact List.mem_append_right _ (List.mem_singleton.mpr rfl)
    · exact ih _ hm

/-- Every violation's rule id appears among the grouped rule ids. -/
theorem mem_groupRuleIds (vs : List Violation) (v : Violation) (h : v ∈ vs) :
    v.rule_id ∈ groupRuleIds vs :=
  mem_groupRuleIds_general vs [] v h

/-- The rule-id fold preserves distinctness. -/
theorem groupRuleIds_nodup_aux (vs : List Violation) (acc : List String)
    (h : acc.Nodup) :
    (vs.foldl (fun a w => if w.rule_id ∈ a then a else a ++ [w.rule_id])
      acc).Nodup := by
  induction vs generalizing acc with
  | nil => exact h
  | cons w vs ih =>
    simp only [List.foldl_cons]
    by_cases hv : w.rule_id ∈ acc
    · rw [if_pos hv]
      exact ih acc h
    · rw [if_neg hv]
      refine ih _ ?_
      rw [List.nodup_append]
      exact ⟨h, List.nodup_singleton _, by
        intro a ha hb
        rw [List.mem_singleton] at hb
        exact hv (hb ▸ ha)⟩

/-- The grouped rule ids are distinct. -/
theorem groupRuleIds_nodup (vs : List Violation) : (groupRuleIds vs).Nodup :=
  groupRuleIds_nodup_aux vs [] List.nodup_nil

/-- A rule id outside the key list is absent from the explanation map. -/
theorem lookupExpl_miss (aiCall : String → Option Explanation)
    (ks : List String) (r : String) (hr : r ∉ ks) :
    lookupExpl ((ks.map fun k => (k, aiCall k)).filterMap
      fun re => re.2.map fun e => (re.1, e)) r = none := by
  induction ks with
  | nil => rfl
  | cons k ks ih =>
    have hk : k ≠ r := fun he => hr (he ▸ List.mem_cons_self k ks)
    have hrks : r ∉ ks := fun hm => hr (List.mem_cons_of_mem k hm)
    rcases ha : aiCall k with _ | e
    · simpa [List.filterMap_cons, ha] using ih hrks
    · simp only [List.map_cons, List.filterMap_cons, ha, Option.map_some']
      unfold lookupExpl
      rw [List.find?_cons_of_neg _ (by simp [hk])]
      exact ih hrks

/-- Looking up any grouped rule id in the explanation map returns exactly the
call oracle's answer for that rule (a missing entry reads as null). -/
theorem lookupExpl_hit (aiCall : String → Option Explanation)
    (ks : List String) (r : String) (hnd : ks.Nodup) (hr : r ∈ ks) :
    lookupExpl ((ks.map fun k => (k, aiCall k)).filterMap
      fun re => re.2.map fun e => (re.1, e)) r = aiCall r := by
  induction ks with
  | nil => simp at hr
  | cons k ks ih =>
    rcases List.mem_cons.mp hr with he | hm
    · subst he
      have hnotin : r ∉ ks := (List.nodup_cons.mp hnd).1
      rcases ha : aiCall r with _ | e
      · simp only [List.map_cons, List.filterMap_cons, ha, Option.map_none']
        exact lookupExpl_miss aiCall ks r hnotin
      · simp only [List.map_cons, List.filterMap_cons, ha, Option.map_some']
        unfold lookupExpl
        rw [List.find?_cons_of_pos _ (by simp)]
        rfl
    · have hnotk : k ≠ r := fun he =>
        (List.nodup_cons.mp hnd).1 (he ▸ hm)
      rcases ha : aiCall k with _ | e
      · simp only [List.map_cons, List.filterMap_cons, ha, Option.map_none']
        exact ih (List.nodup_cons.mp hnd).2 hm
      · simp only [List.map_cons, List.filterMap_cons, ha, Option.map_some']
        unfold lookupExpl
        rw [List.find?_cons_of_neg _ (by simp [hnotk])]
        exact ih (List.nodup_cons.mp hnd).2 hm

/-- The enrichment function annotates every violation with exactly the call
oracle's answer for its rule id. -/
theorem explainViolations_eq (aiCall : String → Option Explanation)
    (vs : List Violation) :
    explainViolations aiCall vs =
      vs.map fun v => { v := v, ai_explanation := aiCall v.rule_id } := by
  rcases hvs : vs with _ | ⟨v0, vs0⟩
  · rfl
  · simp only [explainViolations]
    rw [if_neg (by simp)]
    refine List.map_congr_left fun v hv => ?_
    have hlook : lookupExpl (explanationMap aiCall (v0 :: vs0)) v.rule_id =
        aiCall v.rule_id :=
      lookupExpl_hit aiCall (groupRuleIds (v0 :: vs0)) v.rule_id
        (groupRuleIds_nodup _) (mem_groupRuleIds _ v hv)
    rw [hlook]

/-- C3: a failed explanation call for one rule id yields a null
ai_explanation for that rule's violations only; every other rule's violations
keep exactly the parsed explanation their own call produced, and the scan
response (for any nonempty visited set) still has success true. -/
theorem explanation_failure_isolated (aiCall : String → Option Explanation)
    (vs : List Violation) (r : String) (hfail : aiCall r = none) :
    (∀ ev ∈ explainViolations aiCall vs, ev.v.rule_id = r →
        ev.ai_explanation = none) ∧
      (∀ ev ∈ explainViolations aiCall vs, ev.v.rule_id ≠ r →
        ev.ai_explanation = aiCall ev.v.rule_id) ∧
      (∀ visited : List String, visited ≠ [] →
        (buildScanResponse visited (explainViolations aiCall vs)
          vs).isSuccess = true) := by
  refine ⟨?_, ?_, ?_⟩
  · intro ev hev heq
    rw [explainViolations_eq] at hev
    rcases List.mem_map.mp hev with ⟨v, hv, hmap⟩
    subst hmap
    have heq2 : v.rule_id = r := heq
    show aiCall v.rule_id = none
    rw [heq2]
    exact hfail
  · intro ev hev _
    rw [explainViolations_eq] at hev
    rcases List.mem_map.mp hev with ⟨v, hv, hmap⟩
    subst hmap
    rfl
  · intro visited hne
    unfold buildScanResponse
    rw [if_neg (by simpa [List.length_eq_zero] using hne)]
    rfl

/-- C3 witness: isolation at a concrete two-rule violation list whose
`image-alt` call fails. -/
theorem explanation_failure_isolated_witness :
    c3aiCall "image-alt" = none ∧
      ((∀ ev ∈ explainViolations c3aiCall c3vs, ev.v.rule_id = "image-alt" →
          ev.ai_explanation = none) ∧
        (∀ ev ∈ explainViolations c3aiCall c3vs, ev.v.rule_id ≠ "image-alt" →
          ev.ai_explanation = c3aiCall ev.v.rule_id) ∧
        (∀ visited : List String, visited ≠ [] →
          (buildScanResponse visited (explainViolations c3aiCall c3vs)
            c3vs).isSuccess = true)) :=
  ⟨by decide, explanation_failure_isolated c3aiCall c3vs "image-alt"
    (by decide)⟩

/-- C4: the per-rule explanation calls are not sequential.  For two rules,
the JS evaluation-order trace initiates both external calls during the map
pass, before the first await and before any 500ms delay; only the awaiting of
the already-running calls is paced. -/
theorem explanation_calls_start_concurrently :
    explainTraceEvents (groupRuleIds c4vs) =
      [AiEvent.callStart "color-contrast", AiEvent.callStart "image-alt",
       AiEvent.awaitDone "color-contrast", AiEvent.delayMs 500,
       AiEvent.awaitDone "image-alt"] := by decide

/-- C5: the rendering context is not released on the error exit path.  When
`page.goto` throws (operation index 2, e.g. a navigation timeout), the page
was acquired by `browser.newPage` but `page.close` never runs — the catch
block only logs; on the success path the page is closed. -/
theorem page_not_closed_on_error :
    AuditOp.newPage ∈ executedAuditOps (some 2) ∧
      AuditOp.closePage ∉ executedAuditOps (some 2) ∧
      AuditOp.closePage ∈ executedAuditOps none := by decide

/-- C9 counterexample: a request with `website_url` and `scan_id` but no
`customer_id` and no `plan` is not rejected — the handler proceeds to launch
the browser and crawl, with page limit 50 and enrichment level advanced. -/
theorem missing_customer_id_not_rejected :
    c9req.customer_id = none ∧ c9req.plan = none ∧
      handlerStart c9req = HandlerStart.proceed 50 AiLevel.advanced ∧
      handlerPrefixOps c9req =
        [HandlerOp.launchBrowser, HandlerOp.enterCrawlLoop] := by decide

/-- C9 (amended): only `website_url` and `scan_id` are validated: a request
in which either is missing or empty is rejected with a 400 validation error
before any crawl starts (no browser launch), and a request with both present
proceeds regardless of the other fields. -/
theorem validation_only_website_url_and_scan_id (r : ScanRequest) :
    ((isBlank r.website_url || isBlank r.scan_id) = true →
        (∃ e, handlerStart r = HandlerStart.reject 400 e) ∧
          HandlerOp.launchBrowser ∉ handlerPrefixOps r) ∧
      ((isBlank r.website_url || isBlank r.scan_id) = false →
        handlerStart r =
            HandlerStart.proceed (pageLimit r.max_pages) (aiLevel r.plan) ∧
          HandlerOp.launchBrowser ∈ handlerPrefixOps r) := by
  cases hw : isBlank r.website_url <;> cases hs : isBlank r.scan_id <;>
    simp [handlerStart, handlerPrefixOps, hw, hs]

/-- C9 witness: the amended validation rule applied to a concrete request
missing `website_url`. -/
theorem validation_witness :
    (∃ e, handlerStart c9reqBlank = HandlerStart.reject 400 e) ∧
      HandlerOp.launchBrowser ∉ handlerPrefixOps c9reqBlank :=
  (validation_only_website_url_and_scan_id c9reqBlank).1 (by decide)

/-- C10: the enrichment level is a function of the plan field alone:
plan "free" maps to none, plan "guest" maps to basic, and every other value —
including a missing, empty, or unrecognized plan — maps to advanced. -/
theorem aiLevel_from_plan :
    aiLevel (some "free") = AiLevel.levelNone ∧
      aiLevel (some "guest") = AiLevel.basic ∧
      ∀ p : Option String, p ≠ some "free" → p ≠ some "guest" →
        aiLevel p = AiLevel.advanced := by
  refine ⟨by decide, by decide, ?_⟩
  intro p h1 h2
  simp [aiLevel, h1, h2]

/-- C10 witness: a missing plan receives the advanced enrichment level. -/
theorem aiLevel_from_plan_witness : aiLevel none = AiLevel.advanced :=
  aiLevel_from_plan.2.2 none (by decide) (by decide)
